import Mathlib

/-!
Verification development for `manuel/codeblock.py` (python-manuel).

The module under study extracts ReST `.. code-block:: python` /
`.. invisible-code-block:: python` directives from a document, strips the
directive header, dedents the body, compiles it, and later executes the
compiled unit against a caller-supplied namespace.

We give a shallow embedding of the module:
* document text is `List Char`;
* the two regexes `CODEBLOCK_START` / `CODEBLOCK_END` become operational
  matchers over `List Char`;
* `Document.find_regions` / `replace_region` (which live in the package's
  `manuel/__init__.py`, outside the sources under study) are modelled from
  the spec as a single left-to-right scan that cuts the text into raw-text
  pieces and regions;
* Python library primitives used by the module (`str.splitlines`,
  `textwrap.dedent` as implemented in Python 2.7, `compile`, the Python 2
  `exec ... in globs` statement, `del mapping[key]`) are modelled
  explicitly; the Python parser inside `compile` is kept abstract as a
  `pyparse` parameter, and executed snippets are drawn from a small
  statement language (assignment, `del`, `raise`) rich enough for the
  behaviours under study.
-/

set_option maxRecDepth 4000

deriving instance DecidableEq for Except

namespace ManuelCodeblock

/-! ## Character classes of Python 2 `re` (no UNICODE flag) and helpers -/

/-- Python 2 regex class `\s` = `[ \t\n\r\f\v]`. -/
def isSpaceChar (c : Char) : Bool :=
  c = ' ' || c = '\t' || c = '\n' || c = '\r' || c = '\x0c' || c = '\x0b'

/-- Python 2 regex class `\w` = `[a-zA-Z0-9_]`. -/
def isWordChar (c : Char) : Bool :=
  ('a' ≤ c && c ≤ 'z') || ('A' ≤ c && c ≤ 'Z') || ('0' ≤ c && c ≤ '9') || c = '_'

/-- The characters `textwrap.dedent` treats as indentation: space and tab. -/
def isIndentChar (c : Char) : Bool :=
  c = ' ' || c = '\t'

/-- Consume a literal string at the head of the input; `none` on mismatch. -/
def dropLit : List Char → List Char → Option (List Char)
  | [], cs => some cs
  | _ :: _, [] => none
  | l :: ls, c :: cs => if c = l then dropLit ls cs else none

/-- Boolean "is a prefix of" on character lists. -/
def isPrefixOfCs : List Char → List Char → Bool
  | [], _ => true
  | _ :: _, [] => false
  | a :: as, b :: bs => a = b && isPrefixOfCs as bs

/-! ## Python string primitives used by the module -/

def splitlinesAux : List Char → List Char → List (List Char)
  | [], acc => match acc with
    | [] => []
    | _ :: _ => [acc.reverse]
  | '\r' :: '\n' :: rest, acc => acc.reverse :: splitlinesAux rest []
  | '\n' :: rest, acc => acc.reverse :: splitlinesAux rest []
  | '\r' :: rest, acc => acc.reverse :: splitlinesAux rest []
  | c :: rest, acc => splitlinesAux rest (c :: acc)

/-- Python `str.splitlines()` restricted to the line boundaries `\n`, `\r\n`
and `\r`: line ends are dropped, and a trailing line terminator does not
produce a final empty line. -/
def splitlines (cs : List Char) : List (List Char) :=
  splitlinesAux cs []

def splitNLAux : List Char → List Char → List (List Char)
  | [], acc => [acc.reverse]
  | c :: rest, acc =>
    if c = '\n' then acc.reverse :: splitNLAux rest []
    else splitNLAux rest (c :: acc)

/-- Python `text.split('\n')`: always returns one more part than there are
newlines. -/
def splitNL (cs : List Char) : List (List Char) :=
  splitNLAux cs []

/-- Python `'\n'.join(lines)`. -/
def joinNL : List (List Char) → List Char
  | [] => []
  | [l] => l
  | l :: ls => l ++ '\n' :: joinNL ls

/-- The substitution `re.sub('^[ \t]+$', '', text)` (MULTILINE) performed by
`textwrap.dedent`, viewed line by line: a nonempty line made only of spaces
and tabs becomes empty. -/
def blankOutWsLine (l : List Char) : List Char :=
  match l with
  | [] => []
  | _ :: _ => if l.all isIndentChar then [] else l

/-- Leading run of spaces and tabs of a line. -/
def indentOf (l : List Char) : List Char :=
  l.takeWhile isIndentChar

/-- The margin-selection fold of Python 2.7 `textwrap.dedent`: keep the
current winner while indents are comparable under "is a prefix of"; the
first incomparable pair aborts with the empty margin. -/
def chooseMargin : List Char → List (List Char) → List Char
  | m, [] => m
  | m, i :: is =>
    if isPrefixOfCs m i then chooseMargin m is
    else if isPrefixOfCs i m then chooseMargin i is
    else []

def computeMargin : List (List Char) → List Char
  | [] => []
  | i :: is => chooseMargin i is

/-- Python 2.7 `textwrap.dedent`: blank out whitespace-only lines, compute
the margin from the `[ \t]*` prefixes of the remaining nonempty lines, and
strip the margin from the start of every line that carries it. -/
def dedent (cs : List Char) : List Char :=
  let lines := (splitNL cs).map blankOutWsLine
  let indents := (lines.filter (fun l => l ≠ [])).map indentOf
  let margin := computeMargin indents
  joinNL (lines.map (fun l => if isPrefixOfCs margin l then l.drop margin.length else l))

/-! ## The two regexes of the module (source lines 5-6)

`CODEBLOCK_START = re.compile(r'^\.\.\s*(invisible-)?code-block::\s*python\b', re.MULTILINE)`
`CODEBLOCK_END = re.compile(r'(\n\Z|\n(?=\S))')`

The start pattern is anchored at line starts (the scanner below only tries
it there); given the text from a line start, the matcher returns the
remainder after a match.  Note `\s` may match newlines, so the whitespace
runs between tokens can span line breaks.  The optional group and the
greedy whitespace runs are deterministic here because each following token
starts with a non-space character disjoint from the group's first
character. -/
def CODEBLOCK_START_match (cs : List Char) : Option (List Char) :=
  match dropLit ['.', '.'] cs with
  | none => none
  | some r1 =>
    let r2 := r1.dropWhile isSpaceChar
    let r3 := match dropLit ("invisible-".toList) r2 with
      | some r => r
      | none => r2
    match dropLit ("code-block::".toList) r3 with
    | none => none
    | some r4 =>
      let r5 := r4.dropWhile isSpaceChar
      match dropLit ("python".toList) r5 with
      | none => none
      | some r6 =>
        match r6 with
        | [] => some []
        | c :: _ => if isWordChar c then none else some r6

/-- Does `CODEBLOCK_END` match at the head of the input?  The match is one
character long: a newline that is either the last character of the text
(`\n\Z`) or is followed by a non-whitespace character (`\n(?=\S)`). -/
def CODEBLOCK_END_matches : List Char → Bool
  | [] => false
  | [c] => c = '\n'
  | c :: c2 :: _ => c = '\n' && !(isSpaceChar c2)

/-- Distance to and including the first `CODEBLOCK_END` match in the input,
searching left to right. -/
def findEndLen : List Char → Option Nat
  | [] => none
  | c :: rest =>
    if CODEBLOCK_END_matches (c :: rest) then some 1
    else match findEndLen rest with
      | some n => some (n + 1)
      | none => none

/-- Length of the code-block region beginning at this line start, when the
start pattern matches there: from the start of the start-pattern match to
the end of the first subsequent `CODEBLOCK_END` match.  Modelled from the
spec for the endless case: "the end pattern's first alternative (document
end) guarantees every opened region eventually closes", so a region with no
end match extends to the end of the document text. -/
def tryRegionLen (cs : List Char) : Option Nat :=
  match CODEBLOCK_START_match cs with
  | none => none
  | some rem =>
    let n := cs.length - rem.length
    match findEndLen rem with
    | some m => some (n + m)
    | none => some cs.length

/-! ## The Document collaborator, modelled from the spec -/

/-- A region of the document: its `source` text slice and the 1-based line
number where the span begins. -/
structure Region where
  lineno : Nat
  source : List Char
deriving DecidableEq, Repr

/-- A document cut into raw-text pieces and matched regions. -/
inductive DocPiece where
  | text (s : List Char)
  | region (r : Region)
deriving DecidableEq, Repr

def pieceSource : DocPiece → List Char
  | .text t => t
  | .region r => r.source

def countNL (cs : List Char) : Nat :=
  (cs.filter (fun c => c = '\n')).length

def flushText (acc : List Char) (rest : List DocPiece) : List DocPiece :=
  match acc with
  | [] => rest
  | _ :: _ => .text acc.reverse :: rest

/-- Modelled from the spec: the scan underlying the Document collaborator's
`find_regions` operation (`manuel/__init__.py`, not among the sources under
study).  "a region-discovery operation taking (start-pattern, end-pattern)
and yielding a sequence of regions each exposing `source` (text) and
`lineno` (1-based integer)"; the start pattern is "anchored to line starts,
multiline-aware", and each region "runs until the next column-zero content
or document end".  The scan walks the text left to right, tries the start
pattern at every line start outside a region, and resumes after each
region's end, so regions are non-overlapping and in document order.  `acc`
holds the raw text (reversed) accumulated since the last emitted piece;
`fuel` only forces termination and is always sufficient at the entry
point. -/
def splitDocAux : Nat → List Char → Nat → Bool → List Char → List DocPiece
  | 0, cs, _, _, acc =>
    flushText acc (match cs with | [] => [] | _ :: _ => [.text cs])
  | _ + 1, [], _, _, acc => flushText acc []
  | fuel + 1, c :: cs, lineno, atLineStart, acc =>
    if atLineStart then
      match tryRegionLen (c :: cs) with
      | some n =>
        flushText acc (.region ⟨lineno, (c :: cs).take n⟩ ::
          splitDocAux fuel ((c :: cs).drop n) (lineno + countNL ((c :: cs).take n)) true [])
      | none =>
        splitDocAux fuel cs (if c = '\n' then lineno + 1 else lineno) (c = '\n') (c :: acc)
    else
      splitDocAux fuel cs (if c = '\n' then lineno + 1 else lineno) (c = '\n') (c :: acc)

def splitDoc (text : List Char) : List DocPiece :=
  splitDocAux (text.length + 1) text 1 true []

/-- Modelled from the spec: `Document.find_regions CODEBLOCK_START
CODEBLOCK_END` — the sequence of matched regions, in document order. -/
def find_regions (text : List Char) : List Region :=
  (splitDoc text).filterMap (fun p => match p with
    | .region r => some r
    | .text _ => none)

/-- The Document collaborator: a `location` identifier and the text. -/
structure Document where
  location : String
  text : List Char

/-! ## The executable-snippet model

The Python parser and interpreter are external to the module; we model
executed snippets with a small statement language that is rich enough to
exhibit the module's behaviours: assignment of integer expressions,
`del name`, and `raise`. -/

inductive PyError where
  | syntaxError (msg : String)
  | nameError (name : String)
  | keyError (key : String)
  | typeError
  | raised (msg : String)
deriving DecidableEq, Repr

inductive Expr where
  | const (n : Int)
  | var (x : String)
  | add (a b : Expr)
deriving DecidableEq, Repr

inductive Stmt where
  | assign (x : String) (e : Expr)
  | delName (x : String)
  | raiseMsg (msg : String)
deriving DecidableEq, Repr

abbrev Code := List Stmt

inductive Value where
  | int (n : Int)
  | builtinsModule
deriving DecidableEq, Repr

/-- A namespace: a mutable mapping from names to values, modelled as a
function. -/
def NS : Type := String → Option Value

def nsEmpty : NS := fun _ => none

def nsSet (g : NS) (k : String) (v : Value) : NS :=
  fun k' => if k' = k then some v else g k'

def nsDel (g : NS) (k : String) : NS :=
  fun k' => if k' = k then none else g k'

def evalExpr (g : NS) : Expr → Except PyError Value
  | .const n => .ok (.int n)
  | .var x =>
    match g x with
    | some v => .ok v
    | none => .error (.nameError x)
  | .add a b =>
    match evalExpr g a with
    | .error e => .error e
    | .ok va =>
      match evalExpr g b with
      | .error e => .error e
      | .ok vb =>
        match va, vb with
        | .int m, .int n => .ok (.int (m + n))
        | _, _ => .error .typeError

def execStmt (g : NS) : Stmt → Except PyError NS
  | .assign x e =>
    match evalExpr g e with
    | .error err => .error err
    | .ok v => .ok (nsSet g x v)
  | .delName x =>
    if (g x).isSome then .ok (nsDel g x) else .error (.nameError x)
  | .raiseMsg m => .error (.raised m)

def execCode (code : Code) (g : NS) : Except PyError NS :=
  match code with
  | [] => .ok g
  | s :: rest =>
    match execStmt g s with
    | .error e => .error e
    | .ok g' => execCode rest g'

/-- The Python 2 statement `exec code in globs`: CPython first inserts a
`__builtins__` entry into the globals mapping if it is absent, then runs
the code with `globs` as the environment for both name lookup and
assignment. -/
def pyExecIn (code : Code) (globs : NS) : Except PyError NS :=
  let g := if (globs "__builtins__").isSome then globs
           else nsSet globs "__builtins__" .builtinsModule
  execCode code g

/-- Python `del mapping[key]`: raises `KeyError` when the key is absent. -/
def pyDelItem (g : NS) (k : String) : Except PyError NS :=
  if (g k).isSome then .ok (nsDel g k) else .error (.keyError k)

/-! ## The module under study: `manuel/codeblock.py` -/

/-- The value produced by the Python builtin
`compile(source, filename, mode, flags, dont_inherit)`: the compiled unit,
carrying every argument of the call plus the parsed body.  The parser
itself is abstracted as the `pyparse` argument. -/
structure CompiledCode where
  source : List Char
  filename : String
  mode : String
  flags : Nat
  dont_inherit : Bool
  body : Code
deriving DecidableEq, Repr

def pyCompile (pyparse : List Char → Except PyError Code) (source : List Char)
    (filename mode : String) (flags : Nat) (dont_inherit : Bool) :
    Except PyError CompiledCode :=
  match pyparse source with
  | .error e => .error e
  | .ok body => .ok ⟨source, filename, mode, flags, dont_inherit, body⟩

/-- Source `class CodeBlock(object)` (lines 9-11): wraps one compiled
unit. -/
structure CodeBlock where
  code : CompiledCode
deriving DecidableEq, Repr

/-- The possible parsed payloads of a document node: this module's
structured marker, or some other plugin's marker. -/
inductive Parsed where
  | codeBlock (cb : CodeBlock)
  | other (tag : String)
deriving DecidableEq, Repr

/-- A node of the processed document: its source slice and an optional
parsed payload (`none` for raw text). -/
structure OutNode where
  source : List Char
  parsed : Option Parsed
deriving DecidableEq, Repr

/-- Source line 16:
`source = textwrap.dedent('\n'.join(region.source.splitlines()[1:]))`. -/
def regionCodeText (r : Region) : List Char :=
  dedent (joinNL ((splitlines r.source).drop 1))

/-- Source line 17: `source_location = '%s:%d' % (document.location, region.lineno)`. -/
def sourceLocation (location : String) (r : Region) : String :=
  location ++ ":" ++ toString r.lineno

/-- Error-propagating map used to thread region processing: the first
compile failure aborts the pass with that error. -/
def mapE (f : DocPiece → Except PyError OutNode) :
    List DocPiece → Except PyError (List OutNode)
  | [] => .ok []
  | p :: ps =>
    match f p with
    | .error e => .error e
    | .ok n =>
      match mapE f ps with
      | .error e => .error e
      | .ok ns => .ok (n :: ns)

/-- Processing of one document piece by `find_code_blocks`: raw text is
left unchanged; a region is stripped of its header line, dedented,
compiled via `compile(source, source_location, 'exec', 0, True)` (source
line 18) and replaced by a `CodeBlock` marker (source line 19). -/
def pieceToNode (pyparse : List Char → Except PyError Code) (location : String) :
    DocPiece → Except PyError OutNode
  | .text t => .ok ⟨t, none⟩
  | .region r =>
    match pyCompile pyparse (regionCodeText r) (sourceLocation location r) "exec" 0 true with
    | .error e => .error e
    | .ok code => .ok ⟨r.source, some (.codeBlock ⟨code⟩)⟩

/-- Source `find_code_blocks(document)` (lines 14-19), functionally: the
document text is cut into raw pieces and regions, each region is compiled
and replaced by a structured `CodeBlock` marker in place. -/
def find_code_blocks (pyparse : List Char → Except PyError Code)
    (document : Document) : Except PyError (List OutNode) :=
  mapE (pieceToNode pyparse document.location) (splitDoc document.text)

/-- Source `execute_code_block(region, document, globs)` (lines 22-27): a
node whose parsed payload is not a `CodeBlock` is left alone; otherwise
the compiled unit is run by `exec region.parsed.code in globs` and then
`del globs['__builtins__']` removes the entry exec implicitly added. -/
def execute_code_block (region : OutNode) (document : Document) (globs : NS) :
    Except PyError NS :=
  match region.parsed with
  | some (.codeBlock cb) =>
    match pyExecIn cb.code.body globs with
    | .error e => .error e
    | .ok g => pyDelItem g "__builtins__"
  | _ => .ok globs

/-- Markers present in a processed node list, in order. -/
def markersOf (out : List OutNode) : List CodeBlock :=
  out.filterMap (fun n => match n.parsed with
    | some (.codeBlock cb) => some cb
    | _ => none)

/-- A parser stub that accepts every snippet with an empty body; used to
instantiate the abstract `pyparse` parameter in concrete examples whose
content does not depend on the parsed body. -/
def pyparseOk : List Char → Except PyError Code := fun _ => .ok []

/-- Regions among a piece list, in order. -/
def regionsOf (pieces : List DocPiece) : List Region :=
  pieces.filterMap fun p => match p with
    | .region r => some r
    | .text _ => none

/-! ## Definitions following the spec's words, for comparison with the code -/

/-- The compile-input transform exactly as claim C3 words it: split the
region's source into lines, discard the first line, rejoin the remaining
lines, and remove the common leading whitespace prefix shared by all
remaining non-blank lines.  Stated from the claim's words, to be compared
with `regionCodeText`, which is what `find_code_blocks` actually does. -/
def lcp2 : List Char → List Char → List Char
  | a :: as, b :: bs => if a = b then a :: lcp2 as bs else []
  | _, _ => []

def lcpAll : List (List Char) → List Char
  | [] => []
  | [l] => l
  | l :: ls => lcp2 l (lcpAll ls)

def specCompileText (src : List Char) : List Char :=
  let ls := (splitlines src).drop 1
  let nonblank := ls.filter (fun l => !(l.all isSpaceChar))
  let p := lcpAll (nonblank.map (fun l => l.takeWhile isSpaceChar))
  joinNL (ls.map (fun l => if isPrefixOfCs p l then l.drop p.length else l))

/-- Modelled from the spec: claim C6's "future/feature flags at the most
permissive, always-on setting" — the compile-flags value with every Python
2.7 `__future__` feature enabled (nested_scopes `0x10`, generators
`0x1000`, division `0x2000`, absolute_import `0x4000`, with_statement
`0x8000`, print_function `0x10000`, unicode_literals `0x20000`). -/
def mostPermissiveFutureFlags : Nat :=
  0x10 + 0x1000 + 0x2000 + 0x4000 + 0x8000 + 0x10000 + 0x20000

/-- A block body uniformly indented by `K` spaces: every line starts with
exactly `K` spaces followed by a non-indentation character, and contains no
newline (the lines are the `'\n'`-split parts of the body). -/
def uniformIndent (K : Nat) (lines : List (List Char)) : Bool :=
  !lines.isEmpty && lines.all fun l =>
    decide (l.take K = List.replicate K ' ') &&
    !(l.any (fun c => c = '\n')) &&
    !(l.drop K).isEmpty &&
    !isIndentChar ((l.drop K).headI)

/-- A small concrete document with one block, shared by several witnesses:
`".. code-block:: python\n    x = 1\nE\n"` at location `doc.txt`. -/
def docW : Document := ⟨"doc.txt", ".. code-block:: python\n    x = 1\nE\n".toList⟩

/-- The finder's output on `docW` under the trivial parser stub. -/
def outW : List OutNode :=
  [⟨".. code-block:: python\n    x = 1\n".toList,
    some (.codeBlock ⟨⟨"x = 1".toList, "doc.txt:1", "exec", 0, true, []⟩⟩)⟩,
   ⟨"E\n".toList, none⟩]

/-- A concrete document with two well-formed blocks (one visible, one
invisible) separated by a blank line, with prose before and after. -/
def docTwo : Document :=
  ⟨"doc.txt",
    "Intro\n.. code-block:: python\n    x = 1\n\n.. invisible-code-block:: python\n    y = 2\nOutro\n".toList⟩

/-- The finder's output on `docTwo` under the trivial parser stub: the
prose is untouched and each region becomes one marker, in order. -/
def outTwo : List OutNode :=
  [⟨"Intro\n".toList, none⟩,
   ⟨".. code-block:: python\n    x = 1\n\n".toList,
     some (.codeBlock ⟨⟨"x = 1\n".toList, "doc.txt:2", "exec", 0, true, []⟩⟩)⟩,
   ⟨".. invisible-code-block:: python\n    y = 2\n".toList,
     some (.codeBlock ⟨⟨"y = 2".toList, "doc.txt:5", "exec", 0, true, []⟩⟩)⟩,
   ⟨"Outro\n".toList, none⟩]

/-- The concrete document of the claim C3 counterexample: the block body's
two lines are indented `" \t"` and `"  "` — prefix-incomparable, with
common leading whitespace prefix `" "`. -/
def docC3 : Document := ⟨"doc.txt", ".. code-block:: python\n \ta = 1\n  b = 2\nX\n".toList⟩

/-- The declarative reading of `CODEBLOCK_START` at a line start: the text
is `..`, a (possibly newline-spanning) whitespace run, an optional
`invisible-` qualifier, the literal `code-block::`, a whitespace run, and
the exact token `python` followed by a word boundary (end of text or a
non-word character). -/
def StartPat (cs : List Char) : Prop :=
  ∃ ws1 opt ws2 rest,
    cs = '.' :: '.' ::
      (ws1 ++ (opt ++ ("code-block::".toList ++ (ws2 ++ ("python".toList ++ rest))))) ∧
    (∀ c ∈ ws1, isSpaceChar c = true) ∧
    (opt = [] ∨ opt = "invisible-".toList) ∧
    (∀ c ∈ ws2, isSpaceChar c = true) ∧
    (rest = [] ∨ ∃ c rest2, rest = c :: rest2 ∧ isWordChar c = false)

/-! ## Helper lemmas -/

lemma flushText_sources (acc : List Char) (rest : List DocPiece) :
    ((flushText acc rest).map pieceSource).flatten
      = acc.reverse ++ (rest.map pieceSource).flatten := by
  cases acc with
  | nil => simp [flushText]
  | cons a as => simp [flushText, pieceSource]

lemma splitDocAux_sources (fuel : Nat) :
    ∀ (cs : List Char) (ln : Nat) (b : Bool) (acc : List Char),
    ((splitDocAux fuel cs ln b acc).map pieceSource).flatten = acc.reverse ++ cs := by
  induction fuel with
  | zero =>
    intro cs ln b acc
    cases cs <;> simp [splitDocAux, flushText_sources, pieceSource]
  | succ fuel ih =>
    intro cs ln b acc
    cases cs with
    | nil => simp [splitDocAux, flushText_sources]
    | cons c cs =>
      simp only [splitDocAux]
      by_cases hb : b
      · rw [if_pos hb]
        cases h : tryRegionLen (c :: cs) with
        | some n =>
          simp only [flushText_sources, List.map_cons, List.flatten_cons, pieceSource, ih]
          simp [List.take_append_drop]
        | none =>
          rw [ih]
          simp
      · rw [if_neg hb, ih]
        simp

lemma splitDoc_sources (text : List Char) :
    ((splitDoc text).map pieceSource).flatten = text := by
  simpa [splitDoc] using splitDocAux_sources (text.length + 1) text 1 true []

lemma mapE_ok_forall₂ {f : DocPiece → Except PyError OutNode} :
    ∀ {ps : List DocPiece} {out : List OutNode}, mapE f ps = .ok out →
    List.Forall₂ (fun n p => f p = .ok n) out ps := by
  intro ps
  induction ps with
  | nil =>
    intro out h
    simp only [mapE] at h
    injection h with h
    subst h
    exact List.Forall₂.nil
  | cons p ps ih =>
    intro out h
    simp only [mapE] at h
    cases hf : f p with
    | error e => rw [hf] at h; cases h
    | ok n =>
      rw [hf] at h
      cases hm : mapE f ps with
      | error e => rw [hm] at h; cases h
      | ok ns =>
        rw [hm] at h
        injection h with h
        subst h
        exact List.Forall₂.cons hf (ih hm)

lemma find_regions_eq_regionsOf (text : List Char) :
    find_regions text = regionsOf (splitDoc text) := rfl

/-- Structure of a successful finder pass: the markers of the output
correspond one to one, in order, to the regions of the document, and each
marker's compiled unit records exactly the arguments of source line 18:
the header-stripped dedented text, the `location:lineno` string, mode
`'exec'`, flags `0`, `dont_inherit` true, and the parse of that text. -/
lemma markers_spec {pyparse : List Char → Except PyError Code} {loc : String} :
    ∀ {out : List OutNode} {pieces : List DocPiece},
    List.Forall₂ (fun n p => pieceToNode pyparse loc p = .ok n) out pieces →
    List.Forall₂ (fun (cb : CodeBlock) (r : Region) =>
      cb.code.source = regionCodeText r ∧
      cb.code.filename = sourceLocation loc r ∧
      cb.code.mode = "exec" ∧ cb.code.flags = 0 ∧ cb.code.dont_inherit = true ∧
      pyparse (regionCodeText r) = .ok cb.code.body)
      (markersOf out) (regionsOf pieces) := by
  intro out pieces h
  induction h with
  | nil => exact List.Forall₂.nil
  | @cons n p ns ps hnp htail ih =>
    cases p with
    | text t =>
      simp only [pieceToNode] at hnp
      injection hnp with hnp
      subst hnp
      simpa [markersOf, regionsOf] using ih
    | region r =>
      simp only [pieceToNode, pyCompile] at hnp
      cases hc : pyparse (regionCodeText r) with
      | error e => rw [hc] at hnp; cases hnp
      | ok body =>
        rw [hc] at hnp
        injection hnp with hnp
        subst hnp
        refine List.Forall₂.cons ?_ (by simpa [markersOf, regionsOf] using ih)
        exact ⟨rfl, rfl, rfl, rfl, rfl, hc⟩

lemma sources_match {pyparse : List Char → Except PyError Code} {loc : String} :
    ∀ {out : List OutNode} {pieces : List DocPiece},
    List.Forall₂ (fun n p => pieceToNode pyparse loc p = .ok n) out pieces →
    out.map OutNode.source = pieces.map pieceSource := by
  intro out pieces h
  induction h with
  | nil => rfl
  | @cons n p ns ps hnp htail ih =>
    cases p with
    | text t =>
      simp only [pieceToNode] at hnp
      injection hnp with hnp
      subst hnp
      simp [pieceSource, ih]
    | region r =>
      simp only [pieceToNode, pyCompile] at hnp
      cases hc : pyparse (regionCodeText r) with
      | error e => rw [hc] at hnp; cases hnp
      | ok body =>
        rw [hc] at hnp
        injection hnp with hnp
        subst hnp
        simp [pieceSource, ih]

lemma find_code_blocks_forall₂ {pyparse : List Char → Except PyError Code}
    {document : Document} {out : List OutNode}
    (h : find_code_blocks pyparse document = .ok out) :
    List.Forall₂ (fun n p => pieceToNode pyparse document.location p = .ok n)
      out (splitDoc document.text) :=
  mapE_ok_forall₂ h

lemma nsSet_apply_eq (g : NS) (k : String) (v : Value) : nsSet g k v k = some v := by
  simp [nsSet]

lemma nsSet_apply_ne (g : NS) (k : String) (v : Value) (k' : String) (h : k' ≠ k) :
    nsSet g k v k' = g k' := by
  simp [nsSet, h]

lemma nsDel_apply_eq (g : NS) (k : String) : nsDel g k k = none := by
  simp [nsDel]

lemma nsDel_apply_ne (g : NS) (k : String) (k' : String) (h : k' ≠ k) :
    nsDel g k k' = g k' := by
  simp [nsDel, h]

/-- After the implicit-injection step of `exec ... in globs`, the
`__builtins__` entry is present whatever the caller's namespace held. -/
lemma injected_builtins (globs : NS) :
    ((if (globs "__builtins__").isSome then globs
      else nsSet globs "__builtins__" .builtinsModule) "__builtins__").isSome = true := by
  cases h : globs "__builtins__" with
  | some v => simp [h]
  | none => simp [h, nsSet]

/-- Executing a node holding a single-assignment block: `exec` injects
`__builtins__` when absent, runs the assignment against the namespace, and
the module then deletes the injected entry. -/
lemma execute_single_assign (doc : Document) (node : OutNode) (cb : CodeBlock)
    (globs : NS) (x : String) (e : Expr) (v : Value)
    (hp : node.parsed = some (.codeBlock cb))
    (hb : cb.code.body = [Stmt.assign x e])
    (hx : x ≠ "__builtins__")
    (he : evalExpr (if (globs "__builtins__").isSome then globs
          else nsSet globs "__builtins__" .builtinsModule) e = .ok v) :
    execute_code_block node doc globs =
      .ok (nsDel (nsSet (if (globs "__builtins__").isSome then globs
            else nsSet globs "__builtins__" .builtinsModule) x v) "__builtins__") := by
  have hpres : ((nsSet (if (globs "__builtins__").isSome then globs
      else nsSet globs "__builtins__" .builtinsModule) x v) "__builtins__").isSome = true := by
    rw [nsSet_apply_ne _ _ _ _ (Ne.symm hx)]
    exact injected_builtins globs
  simp only [execute_code_block, hp, pyExecIn, hb, execCode, execStmt, he, pyDelItem, hpres,
    if_true]

example : splitlines ".. code-block:: python\n    x = 1\n".toList =
    [".. code-block:: python".toList, "    x = 1".toList] := by decide

example : dedent "    x = 1\n    y = 2".toList = "x = 1\ny = 2".toList := by decide

example : (CODEBLOCK_START_match ".. code-block:: python\nrest".toList).isSome = true := by
  decide

example : (CODEBLOCK_START_match ".. invisible-code-block:: python\nrest".toList).isSome = true := by
  decide

example : (CODEBLOCK_START_match ".. code-block:: pythonic\n".toList).isSome = false := by
  decide

example : (CODEBLOCK_START_match ".. code-block:: Python\n".toList).isSome = false := by
  decide

example : find_regions ".. code-block:: python\n    x = 1\nEnd\n".toList =
    [⟨1, ".. code-block:: python\n    x = 1\n".toList⟩] := by decide

example : find_regions "no directives here\njust prose\n".toList = [] := by decide

example :
    find_regions "line1\nline2\nline3\nline4\nline5\nline6\nline7\nline8\nline9\n.. code-block:: python\n    x = 1\nEnd\n".toList =
    [⟨10, ".. code-block:: python\n    x = 1\n".toList⟩] := by decide

example :
    (find_regions ".. code-block:: python\n \ta = 1\n  b = 2\nX\n".toList).map
      (fun r => regionCodeText r) = [" \ta = 1\n  b = 2".toList] := by decide

example :
    (find_regions ".. code-block:: python\n \ta = 1\n  b = 2\nX\n".toList).map
      (fun r => specCompileText r.source) = ["\ta = 1\n b = 2".toList] := by decide

example :
    (find_regions "Intro\n.. code-block:: python\n    x = 1\n\n.. invisible-code-block:: python\n    y = 2\nOutro\n".toList).length = 2 := by decide

/-! ## Claim theorems -/

/-- Claim C1: for every node whose parsed payload is a `CodeBlock` marker,
`execute_code_block` runs the compiled unit with the caller-supplied
namespace as its execution environment for both name lookup and
assignment; executing block 1 (`x = 1`) and then block 2 (`y = x + 1`)
against the same namespace results in `namespace['y'] == 2`, and neither
call leaves a builtins-equivalent key in the namespace. -/
theorem claim1_namespace_threading
    (doc : Document) (globs : NS) (node1 node2 : OutNode) (cb1 cb2 : CodeBlock)
    (h1 : node1.parsed = some (.codeBlock cb1))
    (hb1 : cb1.code.body = [Stmt.assign "x" (.const 1)])
    (h2 : node2.parsed = some (.codeBlock cb2))
    (hb2 : cb2.code.body = [Stmt.assign "y" (.add (.var "x") (.const 1))]) :
    ∃ g1 g2, execute_code_block node1 doc globs = .ok g1 ∧
      execute_code_block node2 doc g1 = .ok g2 ∧
      g2 "y" = some (.int 2) ∧
      g1 "__builtins__" = none ∧ g2 "__builtins__" = none := by
  have e1 := execute_single_assign doc node1 cb1 globs "x" (.const 1) (.int 1) h1 hb1
    (by decide) rfl
  have hg1b : (nsDel (nsSet (if (globs "__builtins__").isSome then globs
      else nsSet globs "__builtins__" .builtinsModule) "x" (.int 1)) "__builtins__")
      "__builtins__" = none := nsDel_apply_eq _ _
  have hg1x : (nsDel (nsSet (if (globs "__builtins__").isSome then globs
      else nsSet globs "__builtins__" .builtinsModule) "x" (.int 1)) "__builtins__")
      "x" = some (.int 1) := by
    rw [nsDel_apply_ne _ _ _ (by decide), nsSet_apply_eq]
  have hif : (if ((nsDel (nsSet (if (globs "__builtins__").isSome then globs
        else nsSet globs "__builtins__" .builtinsModule) "x" (.int 1)) "__builtins__")
        "__builtins__").isSome
      then nsDel (nsSet (if (globs "__builtins__").isSome then globs
        else nsSet globs "__builtins__" .builtinsModule) "x" (.int 1)) "__builtins__"
      else nsSet (nsDel (nsSet (if (globs "__builtins__").isSome then globs
        else nsSet globs "__builtins__" .builtinsModule) "x" (.int 1)) "__builtins__")
        "__builtins__" .builtinsModule)
      = nsSet (nsDel (nsSet (if (globs "__builtins__").isSome then globs
        else nsSet globs "__builtins__" .builtinsModule) "x" (.int 1)) "__builtins__")
        "__builtins__" .builtinsModule := by
    rw [hg1b]
    rfl
  have he2 : evalExpr (if ((nsDel (nsSet (if (globs "__builtins__").isSome then globs
        else nsSet globs "__builtins__" .builtinsModule) "x" (.int 1)) "__builtins__")
        "__builtins__").isSome
      then nsDel (nsSet (if (globs "__builtins__").isSome then globs
        else nsSet globs "__builtins__" .builtinsModule) "x" (.int 1)) "__builtins__"
      else nsSet (nsDel (nsSet (if (globs "__builtins__").isSome then globs
        else nsSet globs "__builtins__" .builtinsModule) "x" (.int 1)) "__builtins__")
        "__builtins__" .builtinsModule)
      (.add (.var "x") (.const 1)) = .ok (.int 2) := by
    rw [hif]
    simp only [evalExpr, nsSet_apply_ne _ _ _ _ (by decide : ("x" : String) ≠ "__builtins__"),
      hg1x]
    norm_num
  have e2 := execute_single_assign doc node2 cb2
    (nsDel (nsSet (if (globs "__builtins__").isSome then globs
      else nsSet globs "__builtins__" .builtinsModule) "x" (.int 1)) "__builtins__")
    "y" (.add (.var "x") (.const 1)) (.int 2) h2 hb2 (by decide) he2
  refine ⟨_, _, e1, e2, ?_, hg1b, ?_⟩
  · rw [nsDel_apply_ne _ _ _ (by decide), nsSet_apply_eq]
  · exact nsDel_apply_eq _ _

/-- Closed witness for claim C1 at a concrete input: two concrete marker
nodes executed in sequence starting from the empty namespace. -/
theorem claim1_namespace_threading_witness :
    ∃ g1 g2,
      execute_code_block
        ⟨"block1".toList, some (.codeBlock ⟨⟨"x = 1".toList, "doc.txt:1", "exec", 0, true,
          [Stmt.assign "x" (.const 1)]⟩⟩)⟩ ⟨"doc.txt", []⟩ nsEmpty = .ok g1 ∧
      execute_code_block
        ⟨"block2".toList, some (.codeBlock ⟨⟨"y = x + 1".toList, "doc.txt:5", "exec", 0, true,
          [Stmt.assign "y" (.add (.var "x") (.const 1))]⟩⟩)⟩ ⟨"doc.txt", []⟩ g1 = .ok g2 ∧
      g2 "y" = some (.int 2) ∧
      g1 "__builtins__" = none ∧ g2 "__builtins__" = none :=
  claim1_namespace_threading ⟨"doc.txt", []⟩ nsEmpty _ _ _ _ rfl rfl rfl rfl

/-- Claim C2: whenever `execute_code_block` runs a `CodeBlock` node and
returns, the resulting namespace contains no `__builtins__` entry. -/
theorem claim2_builtins_cleanup
    (node : OutNode) (doc : Document) (globs : NS) (cb : CodeBlock) (g : NS)
    (hp : node.parsed = some (.codeBlock cb))
    (he : execute_code_block node doc globs = .ok g) :
    g "__builtins__" = none := by
  simp only [execute_code_block, hp] at he
  cases hx : pyExecIn cb.code.body globs with
  | error e => rw [hx] at he; cases he
  | ok g0 =>
    rw [hx] at he
    simp only [pyDelItem] at he
    by_cases hb : (g0 "__builtins__").isSome = true
    · rw [if_pos hb] at he
      injection he with he
      subst he
      exact nsDel_apply_eq _ _
    · rw [if_neg hb] at he
      cases he

/-- Closed witness for claim C2: a concrete block `x = 1` run from the
empty namespace leaves no `__builtins__` entry behind. -/
theorem claim2_builtins_cleanup_witness :
    nsDel (nsSet (nsSet nsEmpty "__builtins__" .builtinsModule) "x" (.int 1)) "__builtins__"
      "__builtins__" = none :=
  claim2_builtins_cleanup
    ⟨"block".toList, some (.codeBlock ⟨⟨"x = 1".toList, "doc.txt:1", "exec", 0, true,
      [Stmt.assign "x" (.const 1)]⟩⟩)⟩ ⟨"doc.txt", []⟩ nsEmpty _ _ rfl rfl

/-- Claim C8: `execute_code_block` on a node whose parsed payload is not a
`CodeBlock` — another plugin's marker or plain unparsed text — is a strict
no-op: no error, namespace returned unchanged. -/
theorem claim8_type_gate_noop
    (doc : Document) (globs : NS) (src : List Char) (tag : String) :
    execute_code_block ⟨src, some (.other tag)⟩ doc globs = .ok globs ∧
    execute_code_block ⟨src, none⟩ doc globs = .ok globs :=
  ⟨rfl, rfl⟩

/-- Claim C10: if a snippet's execution succeeds but leaves the namespace
without a `__builtins__` entry (for example the snippet deletes it), the
unguarded `del globs['__builtins__']` cleanup raises `KeyError`. -/
theorem claim10_cleanup_keyerror
    (node : OutNode) (doc : Document) (globs : NS) (cb : CodeBlock) (g : NS)
    (hp : node.parsed = some (.codeBlock cb))
    (hx : pyExecIn cb.code.body globs = .ok g)
    (hb : g "__builtins__" = none) :
    execute_code_block node doc globs = .error (.keyError "__builtins__") := by
  simp only [execute_code_block, hp, hx, pyDelItem, hb]
  rfl

/-- Closed witness for claim C10: a concrete block whose body is
`del __builtins__` executes successfully, after which the module's own
cleanup raises `KeyError('__builtins__')`. -/
theorem claim10_cleanup_keyerror_witness :
    execute_code_block
      ⟨"block".toList, some (.codeBlock ⟨⟨"del __builtins__".toList, "doc.txt:1", "exec", 0,
        true, [Stmt.delName "__builtins__"]⟩⟩)⟩ ⟨"doc.txt", []⟩ nsEmpty
      = .error (.keyError "__builtins__") :=
  claim10_cleanup_keyerror _ ⟨"doc.txt", []⟩ nsEmpty _
    (nsDel (nsSet nsEmpty "__builtins__" .builtinsModule) "__builtins__") rfl rfl rfl

lemma regionsOf_ne_nil {pieces : List DocPiece} (h : regionsOf pieces ≠ []) :
    ∃ r, DocPiece.region r ∈ pieces := by
  induction pieces with
  | nil => simp [regionsOf] at h
  | cons p ps ih =>
    cases p with
    | text t =>
      have h' : regionsOf ps ≠ [] := by simpa [regionsOf] using h
      obtain ⟨r, hr⟩ := ih h'
      exact ⟨r, List.mem_cons_of_mem _ hr⟩
    | region r => exact ⟨r, List.mem_cons_self _ _⟩

lemma mapE_error_all_fail {pyparse : List Char → Except PyError Code} {loc : String}
    {e : PyError} (hall : ∀ s, pyparse s = .error e) :
    ∀ {pieces : List DocPiece}, (∃ r, DocPiece.region r ∈ pieces) →
    mapE (pieceToNode pyparse loc) pieces = .error e := by
  intro pieces
  induction pieces with
  | nil => rintro ⟨r, hr⟩; cases hr
  | cons p ps ih =>
    rintro ⟨r, hr⟩
    cases p with
    | region r' => simp only [mapE, pieceToNode, pyCompile, hall]
    | text t =>
      have hr' : DocPiece.region r ∈ ps := by
        cases hr with
        | tail _ h => exact h
      simp only [mapE, pieceToNode]
      rw [ih ⟨r, hr'⟩]

/-- Claim C9: no error is swallowed.  (1) If the Python parser rejects the
code blocks of a document containing at least one region, the finder pass
itself returns exactly that compile-time error — the failure happens
during `find_code_blocks`, not at execution time.  (2) A runtime fault
raised while executing a snippet propagates unchanged out of
`execute_code_block`: no retry, no suppression, no wrapping. -/
theorem claim9_error_propagation :
    (∀ (pyparse : List Char → Except PyError Code) (doc : Document) (e : PyError),
      (∀ s, pyparse s = .error e) → find_regions doc.text ≠ [] →
      find_code_blocks pyparse doc = .error e) ∧
    (∀ (node : OutNode) (doc : Document) (globs : NS) (cb : CodeBlock) (e : PyError),
      node.parsed = some (.codeBlock cb) → pyExecIn cb.code.body globs = .error e →
      execute_code_block node doc globs = .error e) := by
  constructor
  · intro pyparse doc e hall hne
    have hmem := regionsOf_ne_nil (by rwa [find_regions_eq_regionsOf] at hne)
    exact mapE_error_all_fail hall hmem
  · intro node doc globs cb e hp hx
    simp only [execute_code_block, hp, hx]

/-- Closed witness for claim C9: a document whose single block fails to
parse makes the finder pass fail with that very syntax error, and a
concrete snippet that raises propagates its fault out of the executor. -/
theorem claim9_error_propagation_witness :
    find_code_blocks (fun _ => .error (.syntaxError "invalid syntax"))
        ⟨"doc.txt", ".. code-block:: python\n    1 +\nEnd\n".toList⟩
      = .error (.syntaxError "invalid syntax") ∧
    execute_code_block
        ⟨"block".toList, some (.codeBlock ⟨⟨"raise".toList, "doc.txt:1", "exec", 0, true,
          [Stmt.raiseMsg "boom"]⟩⟩)⟩ ⟨"doc.txt", []⟩ nsEmpty
      = .error (.raised "boom") :=
  ⟨claim9_error_propagation.1 _ _ _ (fun _ => rfl) (by decide),
   claim9_error_propagation.2 _ _ nsEmpty _ _ rfl rfl⟩

example : find_code_blocks pyparseOk docW = .ok outW := by decide

/-- Claim C4: every marker's compiled unit carries the filename
`"<location>:<lineno>"` built from the document's location and its
region's 1-based starting line; in particular a block of `doc.txt`
starting at line 10 is compiled with filename `"doc.txt:10"`. -/
theorem claim4_source_location :
    (∀ (pyparse : List Char → Except PyError Code) (doc : Document) (out : List OutNode),
      find_code_blocks pyparse doc = .ok out →
      List.Forall₂ (fun (cb : CodeBlock) (r : Region) =>
          cb.code.filename = doc.location ++ ":" ++ toString r.lineno)
        (markersOf out) (find_regions doc.text)) ∧
    ((find_code_blocks pyparseOk
        ⟨"doc.txt",
          "l1\nl2\nl3\nl4\nl5\nl6\nl7\nl8\nl9\n.. code-block:: python\n    x = 1\nEnd\n".toList⟩).map
        (fun out => (markersOf out).map (fun cb => cb.code.filename))
      = .ok ["doc.txt:10"]) := by
  constructor
  · intro pyparse doc out h
    rw [find_regions_eq_regionsOf]
    exact (markers_spec (find_code_blocks_forall₂ h)).imp (fun cb r hab => hab.2.1)
  · decide

/-- Closed witness for claim C4 at a concrete input. -/
theorem claim4_source_location_witness :
    List.Forall₂ (fun (cb : CodeBlock) (r : Region) =>
        cb.code.filename = docW.location ++ ":" ++ toString r.lineno)
      (markersOf outW) (find_regions docW.text) :=
  claim4_source_location.1 pyparseOk docW outW (by decide)

/-- Counterexample to claim C6: the finder compiles with the flags
argument `0` — no future/feature flags are enabled, and in particular the
division feature bit `0x2000` is off — not with the most permissive
always-on future-flags setting. -/
theorem claim6_counterexample :
    ((find_code_blocks pyparseOk docW).map
        (fun out => (markersOf out).map (fun cb => cb.code.flags)) = .ok [0]) ∧
    (0 : Nat) ≠ mostPermissiveFutureFlags ∧ (0 : Nat) &&& 0x2000 = 0 := by
  refine ⟨by decide, by decide, rfl⟩

/-- Claim C6 as amended: every discovered region is compiled as a
top-level module body (mode `'exec'`, not a single expression) with flags
`0` — no future features enabled — and with `dont_inherit` set, so the
compilation is unaffected by the containing file's future-import
pragmas. -/
theorem claim6_amended_compile_args
    (pyparse : List Char → Except PyError Code) (doc : Document) (out : List OutNode)
    (h : find_code_blocks pyparse doc = .ok out) :
    List.Forall₂ (fun (cb : CodeBlock) (r : Region) =>
        cb.code.mode = "exec" ∧ cb.code.flags = 0 ∧ cb.code.dont_inherit = true)
      (markersOf out) (find_regions doc.text) := by
  rw [find_regions_eq_regionsOf]
  exact (markers_spec (find_code_blocks_forall₂ h)).imp
    (fun cb r hab => ⟨hab.2.2.1, hab.2.2.2.1, hab.2.2.2.2.1⟩)

/-- Closed witness for the amended claim C6 at a concrete input. -/
theorem claim6_amended_compile_args_witness :
    List.Forall₂ (fun (cb : CodeBlock) (r : Region) =>
        cb.code.mode = "exec" ∧ cb.code.flags = 0 ∧ cb.code.dont_inherit = true)
      (markersOf outW) (find_regions docW.text) :=
  claim6_amended_compile_args pyparseOk docW outW (by decide)

/-- Claim C7: a successful finder pass replaces exactly the matched
regions — one marker per region, in document order — and changes nothing
else: the output nodes' sources concatenate back to the document text; a
document with no matching region yields no markers; a concrete two-block
document yields exactly its two markers in order, and a directive-free
document is returned as a single unchanged text node. -/
theorem claim7_region_replacement :
    (∀ (pyparse : List Char → Except PyError Code) (doc : Document) (out : List OutNode),
      find_code_blocks pyparse doc = .ok out →
      (markersOf out).length = (find_regions doc.text).length ∧
      (out.map OutNode.source).flatten = doc.text ∧
      (find_regions doc.text = [] → markersOf out = [])) ∧
    find_code_blocks pyparseOk docTwo = .ok outTwo ∧
    find_code_blocks pyparseOk ⟨"doc.txt", "Just prose\nNothing here\n".toList⟩ =
      .ok [⟨"Just prose\nNothing here\n".toList, none⟩] := by
  refine ⟨?_, by decide, by decide⟩
  intro pyparse doc out h
  have hf := find_code_blocks_forall₂ h
  have hm := markers_spec hf
  refine ⟨?_, ?_, ?_⟩
  · rw [find_regions_eq_regionsOf]
    exact hm.length_eq
  · rw [sources_match hf]
    exact splitDoc_sources doc.text
  · intro h0
    rw [find_regions_eq_regionsOf] at h0
    rw [h0] at hm
    exact List.forall₂_nil_right_iff.mp hm

/-- Closed witness for claim C7 at the concrete two-block document. -/
theorem claim7_region_replacement_witness :
    (markersOf outTwo).length = (find_regions docTwo.text).length ∧
    (outTwo.map OutNode.source).flatten = docTwo.text ∧
    (find_regions docTwo.text = [] → markersOf outTwo = []) :=
  claim7_region_replacement.1 pyparseOk docTwo outTwo (by decide)

/-! ## Dedent lemmas for claim C3 -/

lemma splitNLAux_no_nl (l : List Char) :
    ∀ acc, (∀ c ∈ l, c ≠ '\n') → splitNLAux l acc = [acc.reverse ++ l] := by
  induction l with
  | nil => intro acc _; simp [splitNLAux]
  | cons c cs ih =>
    intro acc h
    have hc : c ≠ '\n' := h c (List.mem_cons_self _ _)
    simp only [splitNLAux, if_neg hc]
    rw [ih (c :: acc) (fun x hx => h x (List.mem_cons_of_mem _ hx))]
    simp

lemma splitNLAux_append_nl (l : List Char) :
    ∀ acc rest, (∀ c ∈ l, c ≠ '\n') →
    splitNLAux (l ++ '\n' :: rest) acc = (acc.reverse ++ l) :: splitNLAux rest [] := by
  induction l with
  | nil => intro acc rest _; simp [splitNLAux]
  | cons c cs ih =>
    intro acc rest h
    have hc : c ≠ '\n' := h c (List.mem_cons_self _ _)
    simp only [List.cons_append, splitNLAux, if_neg hc, List.append_eq]
    rw [ih (c :: acc) rest (fun x hx => h x (List.mem_cons_of_mem _ hx))]
    simp

lemma splitNL_joinNL (lines : List (List Char)) (hne : lines ≠ [])
    (hnl : ∀ l ∈ lines, ∀ c ∈ l, c ≠ '\n') : splitNL (joinNL lines) = lines := by
  induction lines with
  | nil => exact absurd rfl hne
  | cons l ls ih =>
    cases ls with
    | nil =>
      show splitNLAux (joinNL [l]) [] = [l]
      simp only [joinNL]
      rw [splitNLAux_no_nl l [] (hnl l (List.mem_cons_self _ _))]
      simp
    | cons l2 ls2 =>
      show splitNLAux (joinNL (l :: l2 :: ls2)) [] = l :: l2 :: ls2
      simp only [joinNL]
      rw [splitNLAux_append_nl l [] _ (hnl l (List.mem_cons_self _ _))]
      simp only [List.reverse_nil, List.nil_append]
      congr 1
      exact ih (by simp) (fun x hx => hnl x (List.mem_cons_of_mem _ hx))

lemma isPrefixOfCs_append_self (p : List Char) : ∀ t, isPrefixOfCs p (p ++ t) = true := by
  induction p with
  | nil => intro t; rfl
  | cons a as ih => intro t; simp [isPrefixOfCs, ih]

lemma isPrefixOfCs_refl (p : List Char) : isPrefixOfCs p p = true := by
  simpa using isPrefixOfCs_append_self p []

lemma chooseMargin_all_eq (m : List Char) :
    ∀ is, (∀ i ∈ is, i = m) → chooseMargin m is = m := by
  intro is
  induction is with
  | nil => intro _; rfl
  | cons i is ih =>
    intro h
    have hi : i = m := h i (List.mem_cons_self _ _)
    subst hi
    simp only [chooseMargin, isPrefixOfCs_refl, if_true]
    exact ih (fun j hj => h j (List.mem_cons_of_mem _ hj))

lemma blankOut_eq_self (l : List Char) (h : l.all isIndentChar = false) :
    blankOutWsLine l = l := by
  cases l with
  | nil => rfl
  | cons c cs => simp [blankOutWsLine, h]

lemma all_indent_false_of (K : Nat) (c : Char) (r : List Char)
    (hc : isIndentChar c = false) :
    (List.replicate K ' ' ++ c :: r).all isIndentChar = false := by
  induction K with
  | zero => simp [hc]
  | succ K ih => simp only [List.replicate_succ, List.cons_append, List.all_cons, ih]; simp

lemma takeWhile_indent (K : Nat) (c : Char) (r : List Char)
    (hc : isIndentChar c = false) :
    (List.replicate K ' ' ++ c :: r).takeWhile isIndentChar = List.replicate K ' ' := by
  induction K with
  | zero => simp [List.takeWhile_cons, hc]
  | succ K ih =>
    simp only [List.replicate_succ, List.cons_append, List.takeWhile_cons]
    rw [if_pos (by decide)]
    rw [ih]

/-- When a block body is a nonempty stack of newline-free lines each
consisting of exactly `K` spaces followed by a non-indentation character,
the Python 2.7 dedent removes exactly that `K`-space margin from every
line. -/
lemma dedent_uniform (K : Nat) (lines : List (List Char))
    (h : uniformIndent K lines = true) :
    dedent (joinNL lines) = joinNL (lines.map (fun l => l.drop K)) := by
  simp only [uniformIndent, Bool.and_eq_true, List.all_eq_true, Bool.not_eq_true',
    decide_eq_true_eq] at h
  obtain ⟨hne0, hall⟩ := h
  have hne : lines ≠ [] := by
    cases lines with
    | nil => simp at hne0
    | cons a as => simp
  have hparts : ∀ l ∈ lines, l.take K = List.replicate K ' ' ∧ (∀ c ∈ l, c ≠ '\n') ∧
      ∃ c r, l.drop K = c :: r ∧ isIndentChar c = false := by
    intro l hl
    obtain ⟨⟨⟨htake, hany⟩, hdropne⟩, hhead⟩ := hall l hl
    refine ⟨htake, ?_, ?_⟩
    · intro c hc hceq
      have : l.any (fun c => c = '\n') = true := by
        rw [List.any_eq_true]
        exact ⟨c, hc, by simp [hceq]⟩
      rw [this] at hany
      cases hany
    · cases hd : l.drop K with
      | nil => rw [hd] at hdropne; simp at hdropne
      | cons c r =>
        refine ⟨c, r, rfl, ?_⟩
        rw [hd] at hhead
        simpa using hhead
  have hdec : ∀ l ∈ lines, l = List.replicate K ' ' ++ l.drop K := by
    intro l hl
    conv_lhs => rw [← List.take_append_drop K l]
    rw [(hparts l hl).1]
  have hsplit : splitNL (joinNL lines) = lines :=
    splitNL_joinNL lines hne (fun l hl => (hparts l hl).2.1)
  have hblank : lines.map blankOutWsLine = lines := by
    have : ∀ l ∈ lines, blankOutWsLine l = l := by
      intro l hl
      obtain ⟨c, r, hdrop, hc⟩ := (hparts l hl).2.2
      refine blankOut_eq_self l ?_
      have := all_indent_false_of K c r hc
      rw [← hdrop, ← hdec l hl] at this
      exact this
    rw [List.map_congr_left this]
    simp
  have hlne : ∀ l ∈ lines, l ≠ [] := by
    intro l hl hcontra
    obtain ⟨c, r, hdrop, _⟩ := (hparts l hl).2.2
    rw [hcontra] at hdrop
    simp at hdrop
  have hfilter : lines.filter (fun l => l ≠ []) = lines := by
    rw [List.filter_eq_self]
    intro l hl
    simpa using hlne l hl
  have hindents : lines.map indentOf = lines.map (fun _ => List.replicate K ' ') := by
    refine List.map_congr_left ?_
    intro l hl
    obtain ⟨c, r, hdrop, hc⟩ := (hparts l hl).2.2
    show l.takeWhile isIndentChar = List.replicate K ' '
    conv_lhs => rw [hdec l hl, hdrop]
    exact takeWhile_indent K c r hc
  have hmargin : computeMargin (lines.map (fun _ => List.replicate K ' '))
      = List.replicate K ' ' := by
    cases lines with
    | nil => exact absurd rfl hne
    | cons a as =>
      simp only [List.map_cons, computeMargin]
      refine chooseMargin_all_eq _ _ ?_
      intro i hi
      simp only [List.mem_map] at hi
      obtain ⟨_, _, hi⟩ := hi
      exact hi.symm
  have hstrip : lines.map (fun l =>
      if isPrefixOfCs (List.replicate K ' ') l then l.drop (List.replicate K ' ').length
      else l) = lines.map (fun l => l.drop K) := by
    refine List.map_congr_left ?_
    intro l hl
    have hpre : isPrefixOfCs (List.replicate K ' ') l = true := by
      conv_lhs => rw [hdec l hl]
      exact isPrefixOfCs_append_self _ _
    rw [hpre]
    simp [List.length_replicate]
  simp only [dedent, hsplit, hblank, hfilter, hindents, hmargin, hstrip]

/-- Counterexample to claim C3: on `docC3` the finder compiles the body
unchanged (Python 2.7's dedent finds the indents `" \t"` and `"  "`
prefix-incomparable and removes nothing), whereas removing the common
leading whitespace prefix `" "` shared by the non-blank lines — what the
claim prescribes — would change both lines. -/
theorem claim3_counterexample :
    ((find_code_blocks pyparseOk docC3).map
        (fun out => (markersOf out).map (fun cb => cb.code.source))
      = .ok [" \ta = 1\n  b = 2".toList]) ∧
    ((find_regions docC3.text).map (fun r => specCompileText r.source)
      = ["\ta = 1\n b = 2".toList]) ∧
    ((find_code_blocks pyparseOk docC3).map
        (fun out => (markersOf out).map (fun cb => cb.code.source))
      ≠ .ok ((find_regions docC3.text).map (fun r => specCompileText r.source))) := by
  refine ⟨by decide, by decide, by decide⟩

/-- Claim C3 as amended: the text that gets compiled is obtained by
splitting the region's source into lines, discarding the first line,
rejoining, and applying the Python 2.7 dedent; when the remaining lines
are uniformly indented by `K` spaces this removes exactly that common
prefix — in particular `"    x = 1\n    y = 2"` dedents to
`"x = 1\ny = 2"` — but when the lines' space/tab indents are
prefix-incomparable the dedent removes nothing, even if a shorter common
whitespace prefix exists. -/
theorem claim3_amended_dedent :
    (∀ (pyparse : List Char → Except PyError Code) (doc : Document) (out : List OutNode),
      find_code_blocks pyparse doc = .ok out →
      List.Forall₂ (fun (cb : CodeBlock) (r : Region) =>
          cb.code.source = dedent (joinNL ((splitlines r.source).drop 1)))
        (markersOf out) (find_regions doc.text)) ∧
    (∀ (K : Nat) (lines : List (List Char)), uniformIndent K lines = true →
      dedent (joinNL lines) = joinNL (lines.map (fun l => l.drop K))) ∧
    dedent "    x = 1\n    y = 2".toList = "x = 1\ny = 2".toList := by
  refine ⟨?_, dedent_uniform, by decide⟩
  intro pyparse doc out h
  rw [find_regions_eq_regionsOf]
  exact (markers_spec (find_code_blocks_forall₂ h)).imp (fun cb r hab => hab.1)

/-- Closed witness for the amended claim C3: the finder part at the
concrete document `docW` and the uniform-dedent part at `K = 4` on the
claim's own example body. -/
theorem claim3_amended_dedent_witness :
    List.Forall₂ (fun (cb : CodeBlock) (r : Region) =>
        cb.code.source = dedent (joinNL ((splitlines r.source).drop 1)))
      (markersOf outW) (find_regions docW.text) ∧
    dedent (joinNL ["    x = 1".toList, "    y = 2".toList])
      = joinNL (["    x = 1".toList, "    y = 2".toList].map (fun l => l.drop 4)) :=
  ⟨claim3_amended_dedent.1 pyparseOk docW outW (by decide),
   claim3_amended_dedent.2.1 4 ["    x = 1".toList, "    y = 2".toList] (by decide)⟩

/-! ## Characterization of the directive patterns, for claim C5 -/

lemma dropLit_append_self (l : List Char) : ∀ t, dropLit l (l ++ t) = some t := by
  induction l with
  | nil => intro t; rfl
  | cons a as ih => intro t; simp [dropLit, ih]

lemma dropLit_some (l : List Char) : ∀ cs r, dropLit l cs = some r → cs = l ++ r := by
  induction l with
  | nil =>
    intro cs r h
    simp only [dropLit, Option.some.injEq] at h
    rw [h]
    rfl
  | cons a as ih =>
    intro cs r h
    cases cs with
    | nil => simp [dropLit] at h
    | cons c cs =>
      simp only [dropLit] at h
      by_cases hc : c = a
      · rw [if_pos hc] at h
        rw [hc, ih cs r h]
        rfl
      · rw [if_neg hc] at h
        cases h

lemma dropWhile_space_append (ws : List Char) (hws : ∀ c ∈ ws, isSpaceChar c = true) :
    ∀ (c : Char) (t : List Char), isSpaceChar c = false →
    (ws ++ c :: t).dropWhile isSpaceChar = c :: t := by
  induction ws with
  | nil => intro c t hc; simp [List.dropWhile_cons, hc]
  | cons a as ih =>
    intro c t hc
    have ha := hws a (List.mem_cons_self _ _)
    simp only [List.cons_append, List.dropWhile_cons, ha, if_true]
    exact ih (fun x hx => hws x (List.mem_cons_of_mem _ hx)) c t hc

lemma start_match_sound (cs : List Char)
    (h : (CODEBLOCK_START_match cs).isSome = true) : StartPat cs := by
  simp only [CODEBLOCK_START_match] at h
  cases h1 : dropLit ['.', '.'] cs with
  | none => rw [h1] at h; simp at h
  | some r1 =>
    rw [h1] at h
    have hcs : cs = '.' :: '.' :: r1 := by
      have := dropLit_some ['.', '.'] cs r1 h1
      simpa using this
    simp only at h
    cases h2 : dropLit "invisible-".toList (r1.dropWhile isSpaceChar) with
    | some ri =>
      rw [h2] at h
      have h213 : r1.dropWhile isSpaceChar = "invisible-".toList ++ ri :=
        dropLit_some _ _ _ h2
      cases h3 : dropLit "code-block::".toList ri with
      | none => rw [h3] at h; simp at h
      | some r4 =>
        rw [h3] at h
        have h34 : ri = "code-block::".toList ++ r4 := dropLit_some _ _ _ h3
        simp only at h
        cases h4 : dropLit "python".toList (r4.dropWhile isSpaceChar) with
        | none => rw [h4] at h; simp at h
        | some r6 =>
          rw [h4] at h
          have h45 : r4.dropWhile isSpaceChar = "python".toList ++ r6 :=
            dropLit_some _ _ _ h4
          have hrest : r6 = [] ∨ ∃ c rest2, r6 = c :: rest2 ∧ isWordChar c = false := by
            cases r6 with
            | nil => exact .inl rfl
            | cons c t =>
              simp only at h
              refine .inr ⟨c, t, rfl, ?_⟩
              cases hw : isWordChar c with
              | false => rfl
              | true => rw [hw] at h; simp at h
          have hr4 : r4 = r4.takeWhile isSpaceChar ++ ("python".toList ++ r6) := by
            conv_lhs => rw [← List.takeWhile_append_dropWhile isSpaceChar r4]
            rw [h45]
          refine ⟨r1.takeWhile isSpaceChar, "invisible-".toList, r4.takeWhile isSpaceChar,
            r6, ?_, fun c hc => List.mem_takeWhile_imp hc, .inr rfl,
            fun c hc => List.mem_takeWhile_imp hc, hrest⟩
          rw [hcs]
          have hr1 : r1 = r1.takeWhile isSpaceChar ++
              ("invisible-".toList ++ ("code-block::".toList ++
                (r4.takeWhile isSpaceChar ++ ("python".toList ++ r6)))) := by
            conv_lhs => rw [← List.takeWhile_append_dropWhile isSpaceChar r1]
            rw [h213, h34]
            conv_lhs => rw [hr4]
          rw [← hr1]
    | none =>
      rw [h2] at h
      cases h3 : dropLit "code-block::".toList (r1.dropWhile isSpaceChar) with
      | none => rw [h3] at h; simp at h
      | some r4 =>
        rw [h3] at h
        have h34 : r1.dropWhile isSpaceChar = "code-block::".toList ++ r4 :=
          dropLit_some _ _ _ h3
        simp only at h
        cases h4 : dropLit "python".toList (r4.dropWhile isSpaceChar) with
        | none => rw [h4] at h; simp at h
        | some r6 =>
          rw [h4] at h
          have h45 : r4.dropWhile isSpaceChar = "python".toList ++ r6 :=
            dropLit_some _ _ _ h4
          have hrest : r6 = [] ∨ ∃ c rest2, r6 = c :: rest2 ∧ isWordChar c = false := by
            cases r6 with
            | nil => exact .inl rfl
            | cons c t =>
              simp only at h
              refine .inr ⟨c, t, rfl, ?_⟩
              cases hw : isWordChar c with
              | false => rfl
              | true => rw [hw] at h; simp at h
          have hr4 : r4 = r4.takeWhile isSpaceChar ++ ("python".toList ++ r6) := by
            conv_lhs => rw [← List.takeWhile_append_dropWhile isSpaceChar r4]
            rw [h45]
          refine ⟨r1.takeWhile isSpaceChar, [], r4.takeWhile isSpaceChar,
            r6, ?_, fun c hc => List.mem_takeWhile_imp hc, .inl rfl,
            fun c hc => List.mem_takeWhile_imp hc, hrest⟩
          rw [hcs]
          have hr1 : r1 = r1.takeWhile isSpaceChar ++
              ([] ++ ("code-block::".toList ++
                (r4.takeWhile isSpaceChar ++ ("python".toList ++ r6)))) := by
            conv_lhs => rw [← List.takeWhile_append_dropWhile isSpaceChar r1]
            rw [h34]
            conv_lhs => rw [hr4]
            simp
          rw [← hr1]

lemma dropLit_two_dots (t : List Char) : dropLit ['.', '.'] ('.' :: '.' :: t) = some t := by
  simp [dropLit]

lemma dropWhile_space_append₂ (ws t : List Char) (hws : ∀ c ∈ ws, isSpaceChar c = true)
    (ht : t.dropWhile isSpaceChar = t) : (ws ++ t).dropWhile isSpaceChar = t := by
  induction ws with
  | nil => simpa using ht
  | cons a as ih =>
    have ha := hws a (List.mem_cons_self _ _)
    simp only [List.cons_append, List.dropWhile_cons, ha, if_true]
    exact ih (fun x hx => hws x (List.mem_cons_of_mem _ hx))

lemma dropWhile_space_cons_eq (c : Char) (t : List Char) (hc : isSpaceChar c = false) :
    (c :: t).dropWhile isSpaceChar = c :: t := by
  simp [List.dropWhile_cons, hc]

lemma kw_cons (Y : List Char) :
    "code-block::".toList ++ Y = 'c' :: ("ode-block::".toList ++ Y) := by
  rw [show "code-block::".toList = 'c' :: "ode-block::".toList from by decide]
  rfl

lemma inv_cons (Y : List Char) :
    "invisible-".toList ++ Y = 'i' :: ("nvisible-".toList ++ Y) := by
  rw [show "invisible-".toList = 'i' :: "nvisible-".toList from by decide]
  rfl

lemma py_cons (Y : List Char) :
    "python".toList ++ Y = 'p' :: ("ython".toList ++ Y) := by
  rw [show "python".toList = 'p' :: "ython".toList from by decide]
  rfl

lemma dw_kw (Y : List Char) :
    ("code-block::".toList ++ Y).dropWhile isSpaceChar = "code-block::".toList ++ Y := by
  rw [kw_cons]
  exact dropWhile_space_cons_eq _ _ (by decide)

lemma dw_inv (Y : List Char) :
    ("invisible-".toList ++ Y).dropWhile isSpaceChar = "invisible-".toList ++ Y := by
  rw [inv_cons]
  exact dropWhile_space_cons_eq _ _ (by decide)

lemma dw_py (Y : List Char) :
    ("python".toList ++ Y).dropWhile isSpaceChar = "python".toList ++ Y := by
  rw [py_cons]
  exact dropWhile_space_cons_eq _ _ (by decide)

lemma dropLit_inv_of_kw (Y : List Char) :
    dropLit "invisible-".toList ("code-block::".toList ++ Y) = none := by
  rw [kw_cons, show "invisible-".toList = 'i' :: "nvisible-".toList from by decide]
  simp [dropLit]

lemma start_match_complete (cs : List Char) (h : StartPat cs) :
    (CODEBLOCK_START_match cs).isSome = true := by
  obtain ⟨ws1, opt, ws2, rest, hcs, hws1, hopt, hws2, hrest⟩ := h
  subst hcs
  rcases hopt with hoptE | hoptI
  · subst hoptE
    simp only [List.nil_append, CODEBLOCK_START_match]
    rw [dropLit_two_dots]
    simp only []
    rw [dropWhile_space_append₂ ws1 _ hws1 (dw_kw _)]
    rw [dropLit_inv_of_kw]
    simp only []
    rw [dropLit_append_self "code-block::".toList]
    simp only []
    rw [dropWhile_space_append₂ ws2 _ hws2 (dw_py _)]
    rw [dropLit_append_self "python".toList]
    simp only []
    rcases hrest with hrE | ⟨c, r2, hr, hw⟩
    · subst hrE; rfl
    · subst hr; simp [hw]
  · subst hoptI
    simp only [CODEBLOCK_START_match]
    rw [dropLit_two_dots]
    simp only []
    rw [dropWhile_space_append₂ ws1 _ hws1 (dw_inv _)]
    rw [dropLit_append_self "invisible-".toList]
    simp only []
    rw [dropLit_append_self "code-block::".toList]
    simp only []
    rw [dropWhile_space_append₂ ws2 _ hws2 (dw_py _)]
    rw [dropLit_append_self "python".toList]
    simp only []
    rcases hrest with hrE | ⟨c, r2, hr, hw⟩
    · subst hrE; rfl
    · subst hr; simp [hw]

/-- Claim C5: extraction is characterized by the directive pattern — a
span begins at a line start with `..`, optional whitespace, an optional
`invisible-` qualifier, the `code-block::` keyword, whitespace, and the
exact case-sensitive token `python` at a word boundary (the regex
whitespace class `\s` includes newlines, so the whitespace runs may span
line breaks); the region-ending match is a newline that ends the document
or is followed by a non-whitespace (column-zero) character; the visible
and invisible variants produce identical compiled markers; near-miss
language tags (`ruby`, `pythonic`, capitalized variants) are not
extracted. -/
theorem claim5_extraction_characterization :
    (∀ cs, (CODEBLOCK_START_match cs).isSome = true ↔ StartPat cs) ∧
    (∀ cs, CODEBLOCK_END_matches cs = true ↔
      ∃ rest, cs = '\n' :: rest ∧
        (rest = [] ∨ ∃ c rest2, rest = c :: rest2 ∧ isSpaceChar c = false)) ∧
    ((find_code_blocks pyparseOk
        ⟨"doc", ".. code-block:: python\n    x = 1\nZ\n".toList⟩).map markersOf
      = (find_code_blocks pyparseOk
        ⟨"doc", ".. invisible-code-block:: python\n    x = 1\nZ\n".toList⟩).map markersOf) ∧
    find_regions ".. code-block:: ruby\n    x = 1\nZ\n".toList = [] ∧
    find_regions ".. code-block:: pythonic\n    x = 1\nZ\n".toList = [] ∧
    find_regions ".. Code-Block:: python\n    x = 1\nZ\n".toList = [] := by
  refine ⟨fun cs => ⟨start_match_sound cs, start_match_complete cs⟩, ?_,
    by decide, by decide, by decide, by decide⟩
  intro cs
  cases cs with
  | nil => simp [CODEBLOCK_END_matches]
  | cons c rest =>
    cases rest with
    | nil =>
      simp only [CODEBLOCK_END_matches, decide_eq_true_eq]
      constructor
      · intro h
        exact ⟨[], by rw [h], .inl rfl⟩
      · rintro ⟨r, hr, _⟩
        injection hr
    | cons c2 rest2 =>
      simp only [CODEBLOCK_END_matches, Bool.and_eq_true, decide_eq_true_eq,
        Bool.not_eq_true']
      constructor
      · rintro ⟨h1, h2⟩
        exact ⟨c2 :: rest2, by rw [h1], .inr ⟨c2, rest2, rfl, h2⟩⟩
      · rintro ⟨r, hr, hro⟩
        injection hr with h1 h2
        refine ⟨h1, ?_⟩
        rcases hro with hro | ⟨c', r2, hcr, hw⟩
        · rw [hro] at h2; cases h2
        · rw [← h2] at hcr
          injection hcr with h3 _
          rw [h3]
          exact hw

end ManuelCodeblock
